import Mathlib

/-!
Verification of the receipt-processing repository (`receipt_processor.py`).

The development shallowly embeds the pieces of the program that the
specification talks about:

* a JSON value type together with a serializer modelling
  `json.dump(..., indent=2)` / `json.dumps(..., indent=2)` and a parser
  modelling `json.loads` (strings are held as Lean strings; escaping keeps
  `"`/`\`/control characters exactly as the library does, while characters
  `≥ 0x20` are emitted literally — `ensure_ascii` transcription parses to the
  same value, so values are unaffected);
* a trace-based file-system model for `ReceiptProcessingTools.save_json_data`
  (the Python code opens the destination with mode `'w'`, truncating it, and
  then writes the serialized document into it);
* direct models of `read_json_file`, `extract_text_from_pdf` and
  `list_pdf_files`;
* the record normalizer and the aggregator, which the program delegates to a
  hosted language model and which therefore exist in the code only as prompt
  text; they are modelled from the specification's contracts (§4.1, §4.2).
-/

namespace ReceiptProc

/-! ### Characters and digits -/

/-- JSON whitespace, as skipped by `json.loads`: space, tab, newline, CR. -/
def isWsChar (c : Char) : Bool :=
  c.toNat = 32 || c.toNat = 9 || c.toNat = 10 || c.toNat = 13

/-- ASCII decimal digit. -/
def isDigitChar (c : Char) : Bool :=
  48 ≤ c.toNat && c.toNat ≤ 57

/-- The character for a decimal digit. -/
def digitChar (d : Nat) : Char := Char.ofNat (48 + d)

/-- Lower-case hexadecimal digit character. -/
def hexDigitChar (d : Nat) : Char :=
  if d < 10 then Char.ofNat (48 + d) else Char.ofNat (87 + d)

/-- Numeric value of a decimal digit character. -/
def digitVal (c : Char) : Nat := c.toNat - 48

/-- Value of a big-endian string of decimal digit characters. -/
def digitsToNat (ds : List Char) : Nat :=
  ds.foldl (fun a c => 10 * a + digitVal c) 0

/-- Little-endian decimal digits of a natural number (empty for `0`). -/
def natDigitsRev : Nat → List Char
  | 0 => []
  | n + 1 => digitChar ((n + 1) % 10) :: natDigitsRev ((n + 1) / 10)
decreasing_by exact Nat.div_lt_self (Nat.succ_pos n) (by omega)

/-- Big-endian decimal digits of a natural number (`"0"` for `0`). -/
def natChars (n : Nat) : List Char :=
  if n = 0 then ['0'] else (natDigitsRev n).reverse

/-- Left-pad a digit string with `'0'` up to width `w`. -/
def padLeft (w : Nat) (ds : List Char) : List Char :=
  List.replicate (w - ds.length) '0' ++ ds

/-! ### JSON values

`num m e` denotes the decimal number `m / 10 ^ e`; this represents exactly the
decimal numerals exchanged through the JSON files. -/

inductive Json where
  | null : Json
  | bool : Bool → Json
  | num : Int → Nat → Json
  | str : String → Json
  | arr : List Json → Json
  | obj : List (String × Json) → Json

/-! ### Serializer, modelling `json.dumps(v, indent=2)` -/

/-- Decimal numeral for `n / 10 ^ e` without a sign. -/
def unsignedNumChars (n e : Nat) : List Char :=
  if e = 0 then natChars n
  else natChars (n / 10 ^ e) ++ '.' :: padLeft e (natChars (n % 10 ^ e))

/-- Decimal numeral for `m / 10 ^ e`, e.g. `numChars 1250 2 = "12.50"`. -/
def numChars (m : Int) (e : Nat) : List Char :=
  (if m < 0 then ['-'] else []) ++ unsignedNumChars m.natAbs e

/-- JSON escape of one character (short escapes and `\u00XX` for control
characters; characters `≥ 0x20` other than `"` and `\` are kept literal). -/
def escChar (c : Char) : List Char :=
  if c = '"' then ['\\', '"']
  else if c = '\\' then ['\\', '\\']
  else if c = '\n' then ['\\', 'n']
  else if c = '\t' then ['\\', 't']
  else if c = '\r' then ['\\', 'r']
  else if c.toNat = 8 then ['\\', 'b']
  else if c.toNat = 12 then ['\\', 'f']
  else if c.toNat < 32 then
    ['\\', 'u', '0', '0', hexDigitChar (c.toNat / 16), hexDigitChar (c.toNat % 16)]
  else [c]

/-- Serialized JSON string literal, quotes included. -/
def escStringChars (s : String) : List Char :=
  '"' :: (s.data.map escChar).flatten ++ ['"']

/-- `k` spaces of indentation. -/
def indentChars (k : Nat) : List Char := List.replicate k ' '

mutual

/-- Characters of `json.dumps(v, indent=2)` when the enclosing context sits at
indentation level `lvl`. -/
def serVal : Json → Nat → List Char
  | Json.null, _ => ['n', 'u', 'l', 'l']
  | Json.bool true, _ => ['t', 'r', 'u', 'e']
  | Json.bool false, _ => ['f', 'a', 'l', 's', 'e']
  | Json.num m e, _ => numChars m e
  | Json.str s, _ => escStringChars s
  | Json.arr [], _ => ['[', ']']
  | Json.arr (x :: xs), lvl =>
      '[' :: '\n' :: (indentChars (lvl + 2) ++ serVal x (lvl + 2) ++
        serElems xs (lvl + 2) ++ '\n' :: (indentChars lvl ++ [']']))
  | Json.obj [], _ => ['\x7b', '\x7d']
  | Json.obj (f :: fs), lvl =>
      '\x7b' :: '\n' :: (indentChars (lvl + 2) ++ serField f (lvl + 2) ++
        serFields fs (lvl + 2) ++ '\n' :: (indentChars lvl ++ ['\x7d']))

/-- One `"key": value` member. -/
def serField : String × Json → Nat → List Char
  | (k, v), lvl => escStringChars k ++ ':' :: ' ' :: serVal v lvl

/-- The remaining array elements, each preceded by `",\n" ++ indent`. -/
def serElems : List Json → Nat → List Char
  | [], _ => []
  | x :: xs, lvl => ',' :: '\n' :: (indentChars lvl ++ serVal x lvl ++ serElems xs lvl)

/-- The remaining object members, each preceded by `",\n" ++ indent`. -/
def serFields : List (String × Json) → Nat → List Char
  | [], _ => []
  | f :: fs, lvl => ',' :: '\n' :: (indentChars lvl ++ serField f lvl ++ serFields fs lvl)

end

/-- Model of `json.dumps(v, indent=2)`, the serialization used by
`save_json_data` and `read_json_file`. -/
def dumps (v : Json) : String := String.mk (serVal v 0)

/-! ### Parser, modelling `json.loads` -/

/-- Skip JSON whitespace. -/
def skipWs (s : List Char) : List Char := s.dropWhile isWsChar

/-- Value of a hexadecimal digit character, if it is one. -/
def hexVal (c : Char) : Option Nat :=
  if 48 ≤ c.toNat ∧ c.toNat ≤ 57 then some (c.toNat - 48)
  else if 97 ≤ c.toNat ∧ c.toNat ≤ 102 then some (c.toNat - 87)
  else if 65 ≤ c.toNat ∧ c.toNat ≤ 70 then some (c.toNat - 55)
  else none

/-- Value of four hexadecimal digit characters. -/
def hex4 (a b c d : Char) : Option Nat := do
  let va ← hexVal a
  let vb ← hexVal b
  let vc ← hexVal c
  let vd ← hexVal d
  pure (va * 4096 + vb * 256 + vc * 16 + vd)

/-- Decode a one-character JSON escape (the character after `\`). -/
def decodeEsc (e : Char) : Option Char :=
  if e = '"' then some '"'
  else if e = '\\' then some '\\'
  else if e = '/' then some '/'
  else if e = 'n' then some '\n'
  else if e = 't' then some '\t'
  else if e = 'r' then some '\r'
  else if e = 'b' then some (Char.ofNat 8)
  else if e = 'f' then some (Char.ofNat 12)
  else none

/-- Decode the low-surrogate continuation `\uXXXX` of a surrogate pair whose
high half decoded to `n`, returning the combined character and the number of
characters consumed. -/
def parseLowSurrogate (n : Nat) : List Char → Option (Char × Nat)
  | bs :: u2 :: a2 :: b2 :: c2 :: d2 :: _ =>
    if bs = '\\' ∧ u2 = 'u' then
      match hex4 a2 b2 c2 d2 with
      | none => none
      | some n2 =>
        if 0xDC00 ≤ n2 ∧ n2 < 0xE000 then
          some (Char.ofNat (0x10000 + (n - 0xD800) * 0x400 + (n2 - 0xDC00)), 10)
        else none
    else none
  | _ => none

/-- Decode a `\uXXXX` escape (the input starts after the `u`), combining
surrogate pairs as `json.loads` does.  Returns the decoded character and the
number of characters consumed. -/
def parseEscapeU : List Char → Option (Char × Nat)
  | a :: b :: c :: d :: r =>
    (match hex4 a b c d with
     | none => none
     | some n =>
       if 0xD800 ≤ n ∧ n < 0xDC00 then
         (parseLowSurrogate n r).map (fun p => (p.1, p.2 + 4))
       else if 0xDC00 ≤ n ∧ n < 0xE000 then none
       else some (Char.ofNat n, 4))
  | _ => none

/-- Decode one escape sequence (the input starts after the `\`): a short
escape or `\uXXXX`.  Returns the decoded character and the number of input
characters consumed. -/
def parseEscape : List Char → Option (Char × Nat)
  | [] => none
  | e :: t =>
    if e = 'u' then (parseEscapeU t).map (fun p => (p.1, p.2 + 1))
    else (decodeEsc e).map (fun c => (c, 1))

/-- Parse the body of a JSON string literal (after the opening quote) up to and
including the closing quote, returning the decoded characters and the rest of
the input. -/
def parseStringBody : List Char → Option (List Char × List Char)
  | [] => none
  | c :: t =>
    if c = '"' then some ([], t)
    else if c = '\\' then
      match parseEscape t with
      | none => none
      | some p => (parseStringBody (t.drop p.2)).map (fun q => (p.1 :: q.1, q.2))
    else (parseStringBody t).map (fun p => (c :: p.1, p.2))
termination_by s => s.length
decreasing_by
  all_goals simp [List.length_drop]
  omega

/-- Signed integer from a digit string. -/
def applySign (neg : Bool) (n : Nat) : Int :=
  if neg then -(n : Int) else (n : Int)

/-- Build the decimal `num` value from mantissa digits, a fractional length and
a signed decimal exponent (from an `e`/`E` suffix). -/
def mkNum (neg : Bool) (mant : Nat) (fracLen : Nat) (exp10 : Int) : Json :=
  if exp10 ≤ 0 then Json.num (applySign neg mant) (fracLen + (-exp10).toNat)
  else if fracLen ≤ exp10.toNat then
    Json.num (applySign neg (mant * 10 ^ (exp10.toNat - fracLen))) 0
  else Json.num (applySign neg mant) (fracLen - exp10.toNat)

/-- Parse an optional `e`/`E` exponent suffix and build the number. -/
def parseExpSuffix (neg : Bool) (mant : Nat) (fracLen : Nat) (s : List Char) :
    Option (Json × List Char) :=
  if s.head? = some 'e' ∨ s.head? = some 'E' then
    let t := s.tail
    let expNeg : Bool := t.head? = some '-'
    let t2 := if t.head? = some '-' ∨ t.head? = some '+' then t.tail else t
    let ds := t2.takeWhile isDigitChar
    if ds = [] then none
    else
      some (mkNum neg mant fracLen
        (if expNeg then -(digitsToNat ds : Int) else (digitsToNat ds : Int)),
        t2.dropWhile isDigitChar)
  else some (mkNum neg mant fracLen 0, s)

/-- Parse the unsigned part of a JSON numeral: integer digits, optional
fraction, optional exponent. -/
def parseNumberBody (neg : Bool) (s1 : List Char) : Option (Json × List Char) :=
  let ds := s1.takeWhile isDigitChar
  let s2 := s1.dropWhile isDigitChar
  if ds = [] then none
  else if s2.head? = some '.' then
    let s3 := s2.tail
    let fs := s3.takeWhile isDigitChar
    let s4 := s3.dropWhile isDigitChar
    if fs = [] then none
    else parseExpSuffix neg (digitsToNat (ds ++ fs)) fs.length s4
  else parseExpSuffix neg (digitsToNat ds) 0 s2

/-- Parse a JSON numeral: optional sign, then the unsigned part. -/
def parseNumber (s : List Char) : Option (Json × List Char) :=
  if s.head? = some '-' then parseNumberBody true s.tail
  else parseNumberBody false s

mutual

/-- Fuel-indexed parser for one JSON value, skipping leading whitespace. -/
def parseVal : Nat → List Char → Option (Json × List Char)
  | 0, _ => none
  | fuel + 1, s =>
    match skipWs s with
    | 'n' :: 'u' :: 'l' :: 'l' :: r => some (Json.null, r)
    | 't' :: 'r' :: 'u' :: 'e' :: r => some (Json.bool true, r)
    | 'f' :: 'a' :: 'l' :: 's' :: 'e' :: r => some (Json.bool false, r)
    | '"' :: r => (parseStringBody r).map (fun p => (Json.str (String.mk p.1), p.2))
    | '[' :: r =>
      (match skipWs r with
       | ']' :: r2 => some (Json.arr [], r2)
       | _ =>
         (parseVal fuel r).bind (fun p =>
           (parseElems fuel p.2).map (fun q => (Json.arr (p.1 :: q.1), q.2))))
    | '\x7b' :: r =>
      (match skipWs r with
       | '\x7d' :: r2 => some (Json.obj [], r2)
       | _ =>
         (parseField fuel r).bind (fun p =>
           (parseFields fuel p.2).map (fun q => (Json.obj (p.1 :: q.1), q.2))))
    | s1 => parseNumber s1

/-- Fuel-indexed parser for the elements of an array after the first one:
either `]` closing the array or `,` followed by a value. -/
def parseElems : Nat → List Char → Option (List Json × List Char)
  | 0, _ => none
  | fuel + 1, s =>
    match skipWs s with
    | ']' :: r => some ([], r)
    | ',' :: r =>
      (parseVal fuel r).bind (fun p =>
        (parseElems fuel p.2).map (fun q => (p.1 :: q.1, q.2)))
    | _ => none

/-- Fuel-indexed parser for one `"key": value` member. -/
def parseField : Nat → List Char → Option ((String × Json) × List Char)
  | 0, _ => none
  | fuel + 1, s =>
    match skipWs s with
    | '"' :: r =>
      (parseStringBody r).bind (fun p =>
        match skipWs p.2 with
        | ':' :: r2 => (parseVal fuel r2).map (fun q => ((String.mk p.1, q.1), q.2))
        | _ => none)
    | _ => none

/-- Fuel-indexed parser for the members of an object after the first one:
either `}` closing the object or `,` followed by a member. -/
def parseFields : Nat → List Char → Option (List (String × Json) × List Char)
  | 0, _ => none
  | fuel + 1, s =>
    match skipWs s with
    | '\x7d' :: r => some ([], r)
    | ',' :: r =>
      (parseField fuel r).bind (fun p =>
        (parseFields fuel p.2).map (fun q => (p.1 :: q.1, q.2)))
    | _ => none

end

/-- Model of `json.loads`: parse a complete document, requiring the whole
input (up to trailing whitespace) to be consumed. -/
def parseJson (s : String) : Option Json :=
  match parseVal (s.length + 1) s.data with
  | some (v, rest) => if skipWs rest = [] then some v else none
  | none => none

/-- Input that cannot extend a numeral to its left (used to state the
serializer/parser round trip). -/
def numSafe : List Char → Bool
  | [] => true
  | c :: _ => !(isDigitChar c || c == '.' || c == 'e' || c == 'E')

/-! ### File-system model for the persistence tools -/

/-- A file system: contents, if any, per path. -/
def Fs : Type := String → Option String

/-- One primitive file operation. -/
inductive FsOp where
  | truncate : String → FsOp
  | write : String → String → FsOp
  | rename : String → String → FsOp

/-- Effect of one operation: `truncate p` is `open(p, 'w')`, which empties the
file; `write p s` appends to it; `rename a b` is `os.rename(a, b)` (present in
the operation language so that atomic write patterns are expressible, but never
emitted by the code under verification). -/
def applyOp (fs : Fs) : FsOp → Fs
  | FsOp.truncate p => fun q => if q = p then some "" else fs q
  | FsOp.write p s => fun q => if q = p then some ((fs p).getD "" ++ s) else fs q
  | FsOp.rename a b => fun q => if q = b then fs a else if q = a then none else fs q

def runOps (ops : List FsOp) (fs : Fs) : Fs := ops.foldl applyOp fs

/-- The argument of `save_json_data`: the Python code distinguishes strings
(`isinstance(data, str)`) from already-structured data. -/
inductive SaveArg where
  | str : String → SaveArg
  | val : Json → SaveArg

/-- The `parsed_data` computed by `save_json_data`: a string argument is first
parsed as JSON (`json.loads`), falling back to the raw string on a parse
failure; non-string data is used as-is. -/
def saveParsed : SaveArg → Json
  | SaveArg.str s =>
    (match parseJson s with
     | some v => v
     | none => Json.str s)
  | SaveArg.val v => v

/-- The file operations performed by `ReceiptProcessingTools.save_json_data`:
open the destination itself with mode `'w'` (truncating it), then `json.dump`
the parsed data into it with `indent=2`.  No temporary file and no rename. -/
def saveOps (data : SaveArg) (filename : String) : List FsOp :=
  [FsOp.truncate filename, FsOp.write filename (dumps (saveParsed data))]

/-- Model of `ReceiptProcessingTools.save_json_data`: the resulting file
system and the returned message. -/
def save_json_data (data : SaveArg) (filename : String) (fs : Fs) : Fs × String :=
  (runOps (saveOps data filename) fs, "Data saved successfully to " ++ filename)

/-- Behavioural atomicity of an operation sequence with respect to a
destination path: stopping after any proper prefix of the operations leaves
the destination's contents unchanged. -/
def atomicTo (ops : List FsOp) (dest : String) : Prop :=
  ∀ (fs : Fs) (k : Nat), k < ops.length → runOps (ops.take k) fs dest = fs dest

/-- Model of `ReceiptProcessingTools.read_json_file`: read the file, parse it
with `json.load` and return `json.dumps(data, indent=2)`; any exception is
caught and rendered as an `"Error reading file: ..."` string (the Python
exception text is abstracted to a fixed message per failure kind). -/
def read_json_file (fs : Fs) (filename : String) : String :=
  match fs filename with
  | none => "Error reading file: No such file or directory"
  | some content =>
    (match parseJson content with
     | some v => dumps v
     | none => "Error reading file: Expecting value")

/-- The validation that the specification ascribes to `load_records`: the
document must be a JSON array all of whose elements are objects. -/
def isArrayOfObjects : Json → Bool
  | Json.arr xs => xs.all (fun x => match x with | Json.obj _ => true | _ => false)
  | _ => false

/-! ### extract_text_from_pdf and list_pdf_files -/

/-- Whitespace as stripped by Python's `str.strip()` (ASCII range). -/
def isPyWs (c : Char) : Bool :=
  c.toNat = 32 || c.toNat = 9 || c.toNat = 10 || c.toNat = 13 ||
    c.toNat = 11 || c.toNat = 12

/-- Strip leading and trailing whitespace. -/
def stripChars (s : List Char) : List Char :=
  ((s.dropWhile isPyWs).reverse.dropWhile isPyWs).reverse

/-- The outcome of `pdfplumber.open(...)` on some path: either the per-page
results of `page.extract_text()` (`none` models a page yielding `None`) or a
raised exception with its message. -/
inductive PdfOutcome where
  | ok : List (Option String) → PdfOutcome
  | err : String → PdfOutcome

/-- Model of `ReceiptProcessingTools.extract_text_from_pdf`: starting from
`text = ""`, append `page_text + "\n"` for every page whose text is truthy
(not `None` and not empty), and return `text.strip()`; any exception is caught
and rendered as an `"Error reading PDF: ..."` string. -/
def extract_text_from_pdf : PdfOutcome → String
  | PdfOutcome.ok pages =>
    String.mk (stripChars (pages.foldl
      (fun acc p =>
        match p with
        | some t => if t.data = [] then acc else acc ++ t.data ++ ['\n']
        | none => acc) []))
  | PdfOutcome.err msg => "Error reading PDF: " ++ msg

/-- The texts of the pages that yielded nonempty text. -/
def pageTexts (pages : List (Option String)) : List (List Char) :=
  ((pages.filterMap id).map String.data).filter (fun l => !l.isEmpty)

/-- Newline-join. -/
def interNl : List (List Char) → List Char
  | [] => []
  | t :: ts =>
    match ts with
    | [] => t
    | _ :: _ => t ++ '\n' :: interNl ts

/-- The outcome of `os.listdir(directory)`: the entries, or a raised OS error
with its message. -/
inductive DirListing where
  | ok : List String → DirListing
  | err : String → DirListing

/-- Python's `str.lower()` on one character (ASCII range). -/
def lowerChar (c : Char) : Char :=
  if 65 ≤ c.toNat ∧ c.toNat ≤ 90 then Char.ofNat (c.toNat + 32) else c

/-- Python's `str.endswith`: do the last characters of `l` spell `suff`? -/
def endsWithChars (l suff : List Char) : Bool :=
  l.drop (l.length - suff.length) == suff

/-- `f.lower().endswith('.pdf')`, the filter of `list_pdf_files`. -/
def isPdfName (f : String) : Bool :=
  endsWithChars (f.data.map lowerChar) ".pdf".data

/-- Model of `ReceiptProcessingTools.list_pdf_files`: keep the entries whose
lowercased name ends with `".pdf"`; any exception is caught and rendered as a
one-element list holding an `"Error listing files: ..."` string. -/
def list_pdf_files : DirListing → List String
  | DirListing.ok entries => entries.filter (fun f => isPdfName f)
  | DirListing.err msg => ["Error listing files: " ++ msg]

/-! ### Agents and task structure -/

/-- The tools of `ReceiptProcessingTools`. -/
inductive ToolName where
  | extract_text_from_pdf : ToolName
  | save_json_data : ToolName
  | read_json_file : ToolName
  | list_pdf_files : ToolName
deriving DecidableEq

/-- The tool list handed to the aggregation agent
(`_create_aggregation_agent`). -/
def aggregationAgentTools : List ToolName :=
  [ToolName.read_json_file, ToolName.save_json_data]

/-- The tool list handed to the extraction agent
(`_create_extraction_agent`). -/
def extractionAgentTools : List ToolName :=
  [ToolName.extract_text_from_pdf, ToolName.save_json_data, ToolName.list_pdf_files]

/-- One step of the aggregation procedure prescribed by
`create_aggregation_task`. -/
inductive TaskStep where
  | readFile : String → TaskStep
  | parseData : TaskStep
  | groupByCompany : TaskStep
  | sumAmounts : TaskStep
  | buildResult : TaskStep
  | saveFile : String → TaskStep
deriving DecidableEq

/-- The step-by-step process in the description of `create_aggregation_task`:
1. read `extracted_receipts.json` with the `read_json_file` tool, 2. parse,
3. group by exact company name, 4. sum the amounts, 5. build the aggregate
object, 6. save it to `aggregated_receipts.json` with `save_json_data`. -/
def aggregationTaskSteps : List TaskStep :=
  [TaskStep.readFile "extracted_receipts.json", TaskStep.parseData,
   TaskStep.groupByCompany, TaskStep.sumAmounts, TaskStep.buildResult,
   TaskStep.saveFile "aggregated_receipts.json"]

/-- Does a step read or write the file system? -/
def isFileStep : TaskStep → Bool
  | TaskStep.readFile _ => true
  | TaskStep.saveFile _ => true
  | _ => false

/-! ### Record normalizer and aggregator (modelled from the specification)

The program delegates both to a hosted language model: the grouping and
summing rules exist in the source only as the prompt text of
`create_aggregation_task` (group by exact, case-sensitive `company_name`;
convert string amounts to numbers; treat empty or invalid amounts as `0`; sum
per company), so the definitions below are modelled from the specification's
contracts in §4.1 and §4.2, which repeat those rules. -/

/-- A raw extracted record: each field may be missing (`none`) or hold any
JSON value (`some (Json.null)` models an explicit `null`). -/
structure RawRecord where
  company_name : Option Json
  total_amount : Option Json

/-- A normalized record (§3 of the specification); amounts are exact decimal
numbers. -/
structure NormalizedRecord where
  company_name : String
  total_amount : ℚ
deriving DecidableEq

/-- Characters stripped from the ends of a string amount: whitespace and
currency symbols. -/
def isStripChar (c : Char) : Bool :=
  isPyWs c || c = '$' || c = '€' || c = '£' || c = '₹'

/-- Strip whitespace and currency symbols from both ends. -/
def stripAmount (s : List Char) : List Char :=
  ((s.dropWhile isStripChar).reverse.dropWhile isStripChar).reverse

/-- Digits with an optional decimal fraction, as an exact rational. -/
def parseAmountDigits (s : List Char) : Option ℚ :=
  let ds := s.takeWhile isDigitChar
  let s2 := s.dropWhile isDigitChar
  if ds = [] then none
  else
    match s2 with
    | [] => some ((digitsToNat ds : ℚ))
    | '.' :: s3 =>
      let fs := s3.takeWhile isDigitChar
      if fs = [] then none
      else if s3.dropWhile isDigitChar = [] then
        some ((digitsToNat (ds ++ fs) : ℚ) / 10 ^ fs.length)
      else none
    | _ => none

/-- Modelled from the spec: the numeric parse of a string `total_amount`
(§4.1) — "strip leading/trailing whitespace and any non-numeric currency
symbols, attempt numeric parse; on parse failure or empty string, result is
`0.0`"; negative numbers are accepted.  The program delegates this step to a
hosted language model, so no Python source exists for it. -/
def parseAmount (s : String) : ℚ :=
  match stripAmount s.data with
  | '-' :: t2 =>
    (match parseAmountDigits t2 with
     | some q => -q
     | none => 0)
  | t => (parseAmountDigits t).getD 0

/-- Modelled from the spec: `normalize(raw_record)` (§4.1) — a missing or
non-string `company_name` is coerced to `""` and otherwise used as-is; a
numeric `total_amount` is used as-is, a string one is parsed with
`parseAmount`, and anything else (missing, `null`, other shapes) becomes
`0.0`.  No error is ever raised: the function is total. -/
def normalize (r : RawRecord) : NormalizedRecord :=
  { company_name :=
      match r.company_name with
      | some (Json.str s) => s
      | _ => ""
    total_amount :=
      match r.total_amount with
      | some (Json.num m e) => (m : ℚ) / 10 ^ e
      | some (Json.str s) => parseAmount s
      | _ => 0 }

/-- Add an amount to a company's running sum, inserting the key at the end on
first occurrence (insertion-ordered map, like a Python `dict`). -/
def addAmount : List (String × ℚ) → String → ℚ → List (String × ℚ)
  | [], c, a => [(c, a)]
  | (k, v) :: rest, c, a =>
    if k = c then (k, v + a) :: rest else (k, v) :: addAmount rest c a

/-- Modelled from the spec: `aggregate(normalized_records)` (§4.2) — iterate
the records once in input order, adding each `total_amount` to the running sum
keyed by its exact `company_name`, creating the key on first occurrence. -/
def aggregate (rs : List NormalizedRecord) : List (String × ℚ) :=
  rs.foldl (fun acc r => addAmount acc r.company_name r.total_amount) []

/-- Sum of the values of an aggregate map. -/
def sumValues (l : List (String × ℚ)) : ℚ := (l.map Prod.snd).sum

/-- Total of the records whose company name is exactly `c`. -/
def companyTotal (rs : List NormalizedRecord) (c : String) : ℚ :=
  ((rs.filter (fun r => r.company_name = c)).map NormalizedRecord.total_amount).sum

/-- Does some record carry exactly this company name? -/
def hasCompany (rs : List NormalizedRecord) (c : String) : Bool :=
  rs.any (fun r => r.company_name = c)

/-- Association-list lookup in an aggregate map. -/
def lookupAmt : List (String × ℚ) → String → Option ℚ
  | [], _ => none
  | (k, v) :: rest, c => if k = c then some v else lookupAmt rest c

/-- One entry of an aggregate-map document: a company key and the decimal
amount `mantissa / 10 ^ exp10`. -/
structure AggEntry where
  key : String
  mantissa : Int
  exp10 : Nat

/-- The aggregate map as the JSON document that `save_json_data` receives. -/
def aggMapJson (entries : List AggEntry) : Json :=
  Json.obj (entries.map (fun a => (a.key, Json.num a.mantissa a.exp10)))

/-! ### Character and digit lemmas -/

theorem toNat_ofNat_valid {n : Nat} (h : n.isValidChar) : (Char.ofNat n).toNat = n := by
  rw [Char.ofNat, dif_pos h]
  rfl

theorem toNat_eq_of_eq {c d : Char} (h : c = d) : c.toNat = d.toNat := by rw [h]

theorem ne_of_toNat_ne {c d : Char} (h : c.toNat ≠ d.toNat) : c ≠ d :=
  fun hc => h (toNat_eq_of_eq hc)

theorem digitChar_toNat {d : Nat} (h : d < 10) : (digitChar d).toNat = 48 + d :=
  toNat_ofNat_valid (Or.inl (by omega))

theorem isDigitChar_digitChar {d : Nat} (h : d < 10) : isDigitChar (digitChar d) = true := by
  simp only [isDigitChar, digitChar_toNat h, Bool.and_eq_true, decide_eq_true_eq]
  omega

theorem digitVal_digitChar {d : Nat} (h : d < 10) : digitVal (digitChar d) = d := by
  simp only [digitVal, digitChar_toNat h]
  omega

theorem isDigitChar_toNat {c : Char} (h : isDigitChar c = true) :
    48 ≤ c.toNat ∧ c.toNat ≤ 57 := by
  simpa only [isDigitChar, Bool.and_eq_true, decide_eq_true_eq] using h

theorem not_isDigitChar_of_toNat {c : Char} (h : ¬ (48 ≤ c.toNat ∧ c.toNat ≤ 57)) :
    isDigitChar c = false := by
  simp only [isDigitChar, Bool.and_eq_false_iff, decide_eq_false_iff_not]
  omega

theorem isWsChar_of_digit {c : Char} (h : isDigitChar c = true) : isWsChar c = false := by
  obtain ⟨h1, h2⟩ := isDigitChar_toNat h
  simp only [isWsChar, Bool.or_eq_false_iff, decide_eq_false_iff_not]
  omega

/-! ### takeWhile / dropWhile over an exact split -/

theorem takeWhile_split {p : Char → Bool} :
    ∀ {l r : List Char}, (∀ c ∈ l, p c = true) →
      (∀ c, r.head? = some c → p c = false) →
      (l ++ r).takeWhile p = l ∧ (l ++ r).dropWhile p = r
  | [], [], _, _ => by simp
  | [], c :: r, _, hr => by
    simp [List.takeWhile, List.dropWhile, hr c rfl]
  | a :: l, r, hl, hr => by
    have ha : p a = true := hl a (List.mem_cons_self a l)
    have ih := takeWhile_split (fun c hc => hl c (List.mem_cons_of_mem a hc)) hr
    simp [List.takeWhile, List.dropWhile, ha, ih.1, ih.2]

/-! ### Whitespace skipping -/

theorem skipWs_nil : skipWs [] = [] := rfl

theorem skipWs_cons_not_ws {c : Char} (t : List Char) (h : isWsChar c = false) :
    skipWs (c :: t) = c :: t := by
  simp [skipWs, List.dropWhile, h]

theorem skipWs_cons_ws {c : Char} (t : List Char) (h : isWsChar c = true) :
    skipWs (c :: t) = skipWs t := by
  simp [skipWs, List.dropWhile, h]

theorem skipWs_ws_append {w : List Char} (s : List Char)
    (hw : ∀ c ∈ w, isWsChar c = true) : skipWs (w ++ s) = skipWs s := by
  induction w with
  | nil => rfl
  | cons c t ih =>
    rw [List.cons_append, skipWs_cons_ws _ (hw c (List.mem_cons_self c t))]
    exact ih (fun c hc => hw c (List.mem_cons_of_mem _ hc))

theorem isWsChar_space : isWsChar ' ' = true := by decide

theorem isWsChar_nl : isWsChar '\n' = true := by decide

theorem skipWs_indent (k : Nat) (s : List Char) :
    skipWs (indentChars k ++ s) = skipWs s :=
  skipWs_ws_append s (fun c hc => by
    rw [List.eq_of_mem_replicate hc]
    exact isWsChar_space)

theorem skipWs_nl_indent (k : Nat) (s : List Char) :
    skipWs ('\n' :: (indentChars k ++ s)) = skipWs s := by
  rw [skipWs_cons_ws _ isWsChar_nl, skipWs_indent]

/-! ### Decimal digit strings -/

theorem digitsToNat_nil : digitsToNat [] = 0 := rfl

theorem foldl_digits_init :
    ∀ (b : List Char) (a : Nat),
      b.foldl (fun a c => 10 * a + digitVal c) a = a * 10 ^ b.length + digitsToNat b
  | [], a => by simp [digitsToNat]
  | c :: b, a => by
    have h1 := foldl_digits_init b (10 * a + digitVal c)
    have h2 := foldl_digits_init b (digitVal c)
    simp only [digitsToNat, List.foldl_cons, Nat.mul_zero, Nat.zero_add] at *
    rw [h1, h2]
    simp only [List.length_cons, pow_succ]
    ring

theorem digitsToNat_append (a b : List Char) :
    digitsToNat (a ++ b) = digitsToNat a * 10 ^ b.length + digitsToNat b := by
  unfold digitsToNat
  rw [List.foldl_append]
  exact foldl_digits_init b _

theorem digitsToNat_replicate_zero (k : Nat) :
    digitsToNat (List.replicate k '0') = 0 := by
  induction k with
  | zero => rfl
  | succ n ih =>
    have : digitsToNat (List.replicate (n + 1) '0') =
        digitsToNat (List.replicate n '0' ++ ['0']) := by
      rw [← List.replicate_succ' n '0']
    rw [this, digitsToNat_append, ih]
    decide

theorem mem_natDigitsRev : ∀ (n : Nat), ∀ c ∈ natDigitsRev n, isDigitChar c = true := by
  intro n
  induction n using natDigitsRev.induct with
  | case1 => intro c hc; simp [natDigitsRev] at hc
  | case2 n ih =>
    intro c hc
    rw [natDigitsRev] at hc
    rcases List.mem_cons.1 hc with h | h
    · rw [h]; exact isDigitChar_digitChar (Nat.mod_lt _ (by omega))
    · exact ih c h

theorem natDigitsRev_val : ∀ (n : Nat), digitsToNat (natDigitsRev n).reverse = n := by
  intro n
  induction n using natDigitsRev.induct with
  | case1 => simp [natDigitsRev, digitsToNat]
  | case2 n ih =>
    rw [natDigitsRev, List.reverse_cons, digitsToNat_append, ih]
    have hd : digitVal (digitChar ((n + 1) % 10)) = (n + 1) % 10 :=
      digitVal_digitChar (Nat.mod_lt _ (by omega))
    simp only [List.length_cons, List.length_nil, pow_one, digitsToNat, List.foldl_cons,
      List.foldl_nil, Nat.mul_zero, Nat.zero_add, hd, pow_zero]
    omega

theorem natDigitsRev_length_le : ∀ (n : Nat), ∀ (k : Nat), n < 10 ^ k →
    (natDigitsRev n).length ≤ k := by
  intro n
  induction n using natDigitsRev.induct with
  | case1 => intro k _; simp [natDigitsRev]
  | case2 n ih =>
    intro k hk
    match k with
    | 0 => simp at hk
    | k' + 1 =>
      rw [natDigitsRev]
      simp only [List.length_cons]
      have : (n + 1) / 10 < 10 ^ k' := by
        rw [Nat.div_lt_iff_lt_mul (by omega)]
        calc n + 1 < 10 ^ (k' + 1) := hk
        _ = 10 ^ k' * 10 := by ring
      exact Nat.succ_le_succ (ih k' this)

theorem natChars_val (n : Nat) : digitsToNat (natChars n) = n := by
  unfold natChars
  by_cases h : n = 0
  · simp [h]; rfl
  · rw [if_neg h]; exact natDigitsRev_val n

theorem natChars_ne_nil (n : Nat) : natChars n ≠ [] := by
  unfold natChars
  by_cases h : n = 0
  · simp [h]
  · rw [if_neg h]
    intro hrev
    have : natDigitsRev n = [] := by simpa using congrArg List.reverse hrev
    match n, this with
    | n + 1, h2 => rw [natDigitsRev] at h2; exact absurd h2 (by simp)

theorem mem_natChars (n : Nat) : ∀ c ∈ natChars n, isDigitChar c = true := by
  unfold natChars
  by_cases h : n = 0
  · intro c hc; rw [if_pos h] at hc; simp at hc; rw [hc]; decide
  · intro c hc
    rw [if_neg h] at hc
    exact mem_natDigitsRev n c (List.mem_reverse.1 hc)

theorem natChars_length_le {n k : Nat} (h : n < 10 ^ k) (hk : 1 ≤ k) :
    (natChars n).length ≤ k := by
  unfold natChars
  by_cases h0 : n = 0
  · simp [h0]; omega
  · rw [if_neg h0, List.length_reverse]
    exact natDigitsRev_length_le n k h

theorem padLeft_length {w : Nat} {ds : List Char} (h : ds.length ≤ w) :
    (padLeft w ds).length = w := by
  simp [padLeft]
  omega

theorem padLeft_val (w : Nat) (ds : List Char) :
    digitsToNat (padLeft w ds) = digitsToNat ds := by
  unfold padLeft
  rw [digitsToNat_append, digitsToNat_replicate_zero]
  simp

theorem mem_padLeft {w : Nat} {ds : List Char} (hds : ∀ c ∈ ds, isDigitChar c = true) :
    ∀ c ∈ padLeft w ds, isDigitChar c = true := by
  intro c hc
  rcases List.mem_append.1 hc with h | h
  · rw [List.eq_of_mem_replicate h]; decide
  · exact hds c h

/-! ### String-literal round trip -/

theorem hexVal_hexDigitChar {d : Nat} (h : d < 16) : hexVal (hexDigitChar d) = some d := by
  interval_cases d <;> decide

theorem hex4_esc (n : Nat) (h : n < 256) :
    hex4 '0' '0' (hexDigitChar (n / 16)) (hexDigitChar (n % 16)) = some n := by
  have h1 : n / 16 < 16 := by omega
  have h2 : n % 16 < 16 := by omega
  have h0 : hexVal '0' = some 0 := by decide
  simp only [hex4, h0, hexVal_hexDigitChar h1, hexVal_hexDigitChar h2, Option.bind_eq_bind,
    Option.some_bind, Option.pure_def, Option.some.injEq]
  omega

theorem psb_quote (t : List Char) : parseStringBody ('"' :: t) = some ([], t) := by
  rw [parseStringBody]
  simp

theorem psb_esc (t : List Char) (d : Char) (k : Nat) (h : parseEscape t = some (d, k)) :
    parseStringBody ('\\' :: t) =
      (parseStringBody (t.drop k)).map (fun p => (d :: p.1, p.2)) := by
  rw [parseStringBody]
  simp [h]

theorem psb_other (c : Char) (t : List Char) (h1 : c ≠ '"') (h2 : c ≠ '\\') :
    parseStringBody (c :: t) =
      (parseStringBody t).map (fun p => (c :: p.1, p.2)) := by
  rw [parseStringBody]
  simp [h1, h2]

theorem parseEscape_simple (e d : Char) (t : List Char) (hu : e ≠ 'u')
    (h : decodeEsc e = some d) : parseEscape (e :: t) = some (d, 1) := by
  rw [parseEscape]
  simp [hu, h]

theorem parseEscape_u (n : Nat) (t : List Char) (h : n < 256) :
    parseEscape ('u' :: '0' :: '0' :: hexDigitChar (n / 16) :: hexDigitChar (n % 16) :: t) =
      some (Char.ofNat n, 5) := by
  have h1 : ¬ (0xD800 ≤ n ∧ n < 0xDC00) := by omega
  have h2 : ¬ (0xDC00 ≤ n ∧ n < 0xE000) := by omega
  have hU : parseEscapeU ('0' :: '0' :: hexDigitChar (n / 16) :: hexDigitChar (n % 16) :: t) =
      some (Char.ofNat n, 4) := by
    rw [parseEscapeU]
    simp [hex4_esc n h, h1, h2]
  rw [parseEscape]
  simp [hU]

theorem parseStringBody_esc :
    ∀ (cs : List Char) (rest : List Char),
      parseStringBody ((cs.map escChar).flatten ++ '"' :: rest) = some (cs, rest) := by
  intro cs
  induction cs with
  | nil => intro rest; simpa using psb_quote rest
  | cons c cs ih =>
    intro rest
    have hflat : ((c :: cs).map escChar).flatten ++ '"' :: rest =
        escChar c ++ ((cs.map escChar).flatten ++ '"' :: rest) := by
      simp [List.append_assoc]
    rw [hflat]
    by_cases h1 : c = '"'
    · subst h1
      have he : escChar '"' = ['\\', '"'] := by decide
      rw [he, List.cons_append, List.cons_append, List.nil_append,
        psb_esc _ '"' 1 (parseEscape_simple _ _ _ (by decide) (by decide)),
        List.drop_one, List.tail_cons, ih]
      rfl
    by_cases h2 : c = '\\'
    · subst h2
      have he : escChar '\\' = ['\\', '\\'] := by decide
      rw [he, List.cons_append, List.cons_append, List.nil_append,
        psb_esc _ '\\' 1 (parseEscape_simple _ _ _ (by decide) (by decide)),
        List.drop_one, List.tail_cons, ih]
      rfl
    by_cases h3 : c = '\n'
    · subst h3
      have he : escChar '\n' = ['\\', 'n'] := by decide
      rw [he, List.cons_append, List.cons_append, List.nil_append,
        psb_esc _ '\n' 1 (parseEscape_simple _ _ _ (by decide) (by decide)),
        List.drop_one, List.tail_cons, ih]
      rfl
    by_cases h4 : c = '\t'
    · subst h4
      have he : escChar '\t' = ['\\', 't'] := by decide
      rw [he, List.cons_append, List.cons_append, List.nil_append,
        psb_esc _ '\t' 1 (parseEscape_simple _ _ _ (by decide) (by decide)),
        List.drop_one, List.tail_cons, ih]
      rfl
    by_cases h5 : c = '\r'
    · subst h5
      have he : escChar '\r' = ['\\', 'r'] := by decide
      rw [he, List.cons_append, List.cons_append, List.nil_append,
        psb_esc _ '\r' 1 (parseEscape_simple _ _ _ (by decide) (by decide)),
        List.drop_one, List.tail_cons, ih]
      rfl
    by_cases h6 : c.toNat = 8
    · have hc : Char.ofNat 8 = c := by rw [← h6, Char.ofNat_toNat]
      have he : escChar c = ['\\', 'b'] := by
        rw [escChar]
        simp only [if_neg h1, if_neg h2, if_neg h3, if_neg h4, if_neg h5, if_pos h6]
      rw [he, List.cons_append, List.cons_append, List.nil_append,
        psb_esc _ (Char.ofNat 8) 1 (parseEscape_simple _ _ _ (by decide) (by decide)),
        List.drop_one, List.tail_cons, ih, hc]
      rfl
    by_cases h7 : c.toNat = 12
    · have hc : Char.ofNat 12 = c := by rw [← h7, Char.ofNat_toNat]
      have he : escChar c = ['\\', 'f'] := by
        rw [escChar]
        simp only [if_neg h1, if_neg h2, if_neg h3, if_neg h4, if_neg h5, if_neg h6, if_pos h7]
      rw [he, List.cons_append, List.cons_append, List.nil_append,
        psb_esc _ (Char.ofNat 12) 1 (parseEscape_simple _ _ _ (by decide) (by decide)),
        List.drop_one, List.tail_cons, ih, hc]
      rfl
    by_cases h8 : c.toNat < 32
    · have he : escChar c =
          ['\\', 'u', '0', '0', hexDigitChar (c.toNat / 16), hexDigitChar (c.toNat % 16)] := by
        rw [escChar]
        simp only [if_neg h1, if_neg h2, if_neg h3, if_neg h4, if_neg h5, if_neg h6, if_neg h7,
          if_pos h8]
      rw [he]
      simp only [List.cons_append, List.nil_append]
      rw [psb_esc _ (Char.ofNat c.toNat) 5 (parseEscape_u c.toNat _ (by omega))]
      simp only [List.drop_succ_cons, List.drop_zero, ih, Char.ofNat_toNat]
      rfl
    · have he : escChar c = [c] := by
        rw [escChar]
        simp only [if_neg h1, if_neg h2, if_neg h3, if_neg h4, if_neg h5, if_neg h6, if_neg h7,
          if_neg h8]
      rw [he, List.cons_append, List.nil_append, psb_other c _ h1 h2, ih]
      rfl

/-! ### Numeral round trip -/

theorem numSafe_head {c : Char} {t : List Char} (h : numSafe (c :: t) = true) :
    isDigitChar c = false ∧ c ≠ '.' ∧ c ≠ 'e' ∧ c ≠ 'E' := by
  simp only [numSafe, Bool.not_eq_true', Bool.or_eq_false_iff, beq_eq_false_iff_ne, ne_eq] at h
  exact ⟨h.1.1.1, h.1.1.2, h.1.2, h.2⟩

theorem numSafe_not_digit {rest : List Char} (h : numSafe rest = true) :
    ∀ c, rest.head? = some c → isDigitChar c = false := by
  intro c hc
  cases rest with
  | nil => simp at hc
  | cons c0 t =>
    simp only [List.head?_cons, Option.some.injEq] at hc
    exact hc ▸ (numSafe_head h).1

theorem numSafe_no_dot {rest : List Char} (h : numSafe rest = true) :
    ¬ rest.head? = some '.' := by
  intro hc
  cases rest with
  | nil => simp at hc
  | cons c0 t =>
    simp only [List.head?_cons, Option.some.injEq] at hc
    exact (numSafe_head h).2.1 hc

theorem numSafe_no_exp {rest : List Char} (h : numSafe rest = true) :
    ¬ (rest.head? = some 'e' ∨ rest.head? = some 'E') := by
  rintro (hc | hc) <;> cases rest with
  | nil => simp at hc
  | cons c0 t =>
    simp only [List.head?_cons, Option.some.injEq] at hc
    first
    | exact (numSafe_head h).2.2.1 hc
    | exact (numSafe_head h).2.2.2 hc

theorem natChars_head (n : Nat) :
    ∃ c t, natChars n = c :: t ∧ isDigitChar c = true := by
  cases hnc : natChars n with
  | nil => exact absurd hnc (natChars_ne_nil n)
  | cons c t =>
    exact ⟨c, t, rfl, mem_natChars n c (by rw [hnc]; exact List.mem_cons_self c t)⟩

theorem mkNum_zero (neg : Bool) (mant fracLen : Nat) :
    mkNum neg mant fracLen 0 = Json.num (applySign neg mant) fracLen := by
  simp [mkNum]

theorem parseExpSuffix_noExp (neg : Bool) (mant fracLen : Nat) (rest : List Char)
    (hrest : numSafe rest = true) :
    parseExpSuffix neg mant fracLen rest =
      some (Json.num (applySign neg mant) fracLen, rest) := by
  rw [parseExpSuffix, if_neg (numSafe_no_exp hrest), mkNum_zero]

theorem parseNumberBody_ser (n e : Nat) (neg : Bool) (rest : List Char)
    (hrest : numSafe rest = true) :
    parseNumberBody neg (unsignedNumChars n e ++ rest) =
      some (Json.num (applySign neg n) e, rest) := by
  have hrd := numSafe_not_digit hrest
  by_cases he : e = 0
  · subst he
    rw [unsignedNumChars, if_pos rfl]
    have hsp := takeWhile_split (mem_natChars n) hrd
    rw [parseNumberBody]
    simp only [hsp.1, hsp.2]
    rw [if_neg (natChars_ne_nil n), if_neg (numSafe_no_dot hrest),
      parseExpSuffix_noExp neg _ _ rest hrest, natChars_val]
  · rw [unsignedNumChars, if_neg he]
    have hmod : n % 10 ^ e < 10 ^ e := Nat.mod_lt _ (Nat.pos_pow_of_pos e (by omega))
    have hfl : (padLeft e (natChars (n % 10 ^ e))).length = e :=
      padLeft_length (natChars_length_le hmod (by omega))
    have hfd : ∀ c ∈ padLeft e (natChars (n % 10 ^ e)), isDigitChar c = true :=
      mem_padLeft (mem_natChars _)
    have hfsp := takeWhile_split hfd hrd
    have hr2 : ∀ c : Char,
        ('.' :: (padLeft e (natChars (n % 10 ^ e)) ++ rest)).head? = some c →
          isDigitChar c = false := by
      intro c hc
      simp only [List.head?_cons, Option.some.injEq] at hc
      rw [← hc]
      decide
    have hdsp := takeWhile_split (mem_natChars (n / 10 ^ e)) hr2
    rw [List.append_assoc, List.cons_append]
    rw [parseNumberBody]
    simp only [hdsp.1, hdsp.2]
    rw [if_neg (natChars_ne_nil _), if_pos (by simp), List.tail_cons]
    simp only [hfsp.1, hfsp.2]
    have hfne : padLeft e (natChars (n % 10 ^ e)) ≠ [] := by
      intro hnil
      rw [hnil] at hfl
      simp at hfl
      omega
    rw [if_neg hfne, parseExpSuffix_noExp neg _ _ rest hrest]
    rw [digitsToNat_append, padLeft_val, natChars_val, natChars_val, hfl,
      Nat.mul_comm (n / 10 ^ e) (10 ^ e), Nat.div_add_mod]

theorem unsignedNumChars_head (n e : Nat) :
    ∃ c t, unsignedNumChars n e = c :: t ∧ isDigitChar c = true := by
  rw [unsignedNumChars]
  by_cases he : e = 0
  · rw [if_pos he]; exact natChars_head n
  · rw [if_neg he]
    obtain ⟨c, t, hnc, hcd⟩ := natChars_head (n / 10 ^ e)
    exact ⟨c, t ++ '.' :: padLeft e (natChars (n % 10 ^ e)), by rw [hnc]; simp, hcd⟩

theorem parseNumber_ser (m : Int) (e : Nat) (rest : List Char)
    (hrest : numSafe rest = true) :
    parseNumber (numChars m e ++ rest) = some (Json.num m e, rest) := by
  by_cases hm : m < 0
  · have hstep : numChars m e ++ rest = '-' :: (unsignedNumChars m.natAbs e ++ rest) := by
      rw [numChars, if_pos hm]
      simp
    have hb := parseNumberBody_ser m.natAbs e true rest hrest
    rw [hstep, parseNumber, if_pos (by rw [List.head?_cons]), List.tail_cons, hb]
    have : applySign true m.natAbs = m := by
      have := Int.ofNat_natAbs_of_nonpos (le_of_lt hm)
      rw [applySign, if_pos rfl]
      omega
    rw [this]
  · rw [numChars, if_neg hm, List.nil_append]
    obtain ⟨c, t, hnc, hcd⟩ := unsignedNumChars_head m.natAbs e
    have hcm : c ≠ '-' := by
      obtain ⟨h1, h2⟩ := isDigitChar_toNat hcd
      have h45 : ('-').toNat = 45 := by decide
      exact ne_of_toNat_ne (by omega)
    have hhead : ¬ (unsignedNumChars m.natAbs e ++ rest).head? = some '-' := by
      rw [hnc, List.cons_append, List.head?_cons]
      simp [hcm]
    have hb := parseNumberBody_ser m.natAbs e false rest hrest
    rw [parseNumber, if_neg hhead, hb]
    have : applySign false m.natAbs = m := by
      have := Int.natAbs_of_nonneg (le_of_not_lt hm)
      rw [applySign, if_neg (by decide)]
      omega
    rw [this]

/-! ### Parsers ignore leading whitespace -/

theorem parseVal_congr_ws {s1 s2 : List Char} (h : skipWs s1 = skipWs s2) (fuel : Nat) :
    parseVal fuel s1 = parseVal fuel s2 := by
  cases fuel with
  | zero => rfl
  | succ f => rw [parseVal, parseVal, h]

theorem parseElems_congr_ws {s1 s2 : List Char} (h : skipWs s1 = skipWs s2) (fuel : Nat) :
    parseElems fuel s1 = parseElems fuel s2 := by
  cases fuel with
  | zero => rfl
  | succ f => rw [parseElems, parseElems, h]

theorem parseField_congr_ws {s1 s2 : List Char} (h : skipWs s1 = skipWs s2) (fuel : Nat) :
    parseField fuel s1 = parseField fuel s2 := by
  cases fuel with
  | zero => rfl
  | succ f => rw [parseField, parseField, h]

theorem parseFields_congr_ws {s1 s2 : List Char} (h : skipWs s1 = skipWs s2) (fuel : Nat) :
    parseFields fuel s1 = parseFields fuel s2 := by
  cases fuel with
  | zero => rfl
  | succ f => rw [parseFields, parseFields, h]

/-! ### Head shapes of serialized values -/

theorem numChars_head (m : Int) (e : Nat) :
    ∃ c t, numChars m e = c :: t ∧ (c.toNat = 45 ∨ (48 ≤ c.toNat ∧ c.toNat ≤ 57)) := by
  by_cases hm : m < 0
  · exact ⟨'-', unsignedNumChars m.natAbs e, by rw [numChars, if_pos hm]; simp,
      Or.inl (by decide)⟩
  · obtain ⟨c, t, hu, hd⟩ := unsignedNumChars_head m.natAbs e
    exact ⟨c, t, by rw [numChars, if_neg hm, List.nil_append, hu],
      Or.inr (isDigitChar_toNat hd)⟩

theorem serVal_head (v : Json) (lvl : Nat) :
    ∃ c t, serVal v lvl = c :: t ∧ isWsChar c = false ∧ c ≠ ']' := by
  cases v with
  | null => exact ⟨'n', _, by rw [serVal], by decide, by decide⟩
  | bool b =>
    cases b with
    | true => exact ⟨'t', _, by rw [serVal], by decide, by decide⟩
    | false => exact ⟨'f', _, by rw [serVal], by decide, by decide⟩
  | num m e =>
    obtain ⟨c, t, h, hc⟩ := numChars_head m e
    refine ⟨c, t, by rw [serVal, h], ?_, ?_⟩
    · simp only [isWsChar, Bool.or_eq_false_iff, decide_eq_false_iff_not]
      omega
    · refine ne_of_toNat_ne ?_
      have h93 : (']').toNat = 93 := by decide
      omega
  | str s =>
    exact ⟨'"', (s.data.map escChar).flatten ++ ['"'],
      by rw [serVal, escStringChars, List.cons_append], by decide, by decide⟩
  | arr xs =>
    cases xs with
    | nil => exact ⟨'[', _, by rw [serVal], by decide, by decide⟩
    | cons x xs => exact ⟨'[', _, by rw [serVal], by decide, by decide⟩
  | obj fs =>
    cases fs with
    | nil => exact ⟨'\x7b', _, by rw [serVal], by decide, by decide⟩
    | cons f fs => exact ⟨'\x7b', _, by rw [serVal], by decide, by decide⟩

theorem serField_head (f : String × Json) (lvl : Nat) :
    ∃ t, serField f lvl = '"' :: t := by
  obtain ⟨k, v⟩ := f
  refine ⟨(k.data.map escChar).flatten ++ ['"'] ++ (':' :: ' ' :: serVal v lvl), ?_⟩
  rw [serField, escStringChars]
  simp [List.append_assoc]

/-! ### numSafe instances -/

theorem numSafe_cons {c : Char} (z : List Char) (h1 : isDigitChar c = false)
    (h2 : c ≠ '.') (h3 : c ≠ 'e') (h4 : c ≠ 'E') : numSafe (c :: z) = true := by
  rw [numSafe]
  simp [h1, h2, h3, h4]

theorem numSafe_nl (z : List Char) : numSafe ('\n' :: z) = true :=
  numSafe_cons z (by decide) (by decide) (by decide) (by decide)

theorem numSafe_serElems (xs : List Json) (lvl : Nat) (z : List Char) :
    numSafe (serElems xs lvl ++ '\n' :: z) = true := by
  cases xs with
  | nil => rw [serElems, List.nil_append]; exact numSafe_nl z
  | cons x xs =>
    rw [serElems, List.cons_append]
    exact numSafe_cons _ (by decide) (by decide) (by decide) (by decide)

theorem numSafe_serFields (fs : List (String × Json)) (lvl : Nat) (z : List Char) :
    numSafe (serFields fs lvl ++ '\n' :: z) = true := by
  cases fs with
  | nil => rw [serFields, List.nil_append]; exact numSafe_nl z
  | cons f fs =>
    rw [serFields, List.cons_append]
    exact numSafe_cons _ (by decide) (by decide) (by decide) (by decide)

theorem stringMk_data (s : String) : String.mk s.data = s := rfl

/-! ### Serializer/parser round trip -/

theorem parse_ser_fuel : ∀ fuel : Nat,
    (∀ v lvl rest, (serVal v lvl).length < fuel → numSafe rest = true →
      parseVal fuel (serVal v lvl ++ rest) = some (v, rest)) ∧
    (∀ xs lvl lc rest, (serElems xs lvl).length < fuel →
      parseElems fuel (serElems xs lvl ++ '\n' :: (indentChars lc ++ ']' :: rest)) =
        some (xs, rest)) ∧
    (∀ f lvl rest, (serField f lvl).length < fuel → numSafe rest = true →
      parseField fuel (serField f lvl ++ rest) = some (f, rest)) ∧
    (∀ fs lvl lc rest, (serFields fs lvl).length < fuel →
      parseFields fuel (serFields fs lvl ++ '\n' :: (indentChars lc ++ '\x7d' :: rest)) =
        some (fs, rest)) := by
  intro fuel
  induction fuel with
  | zero =>
    refine ⟨?_, ?_, ?_, ?_⟩
    · intro v lvl rest hlen
      exact absurd hlen (Nat.not_lt_zero _)
    · intro xs lvl lc rest hlen
      exact absurd hlen (Nat.not_lt_zero _)
    · intro f lvl rest hlen
      exact absurd hlen (Nat.not_lt_zero _)
    · intro fs lvl lc rest hlen
      exact absurd hlen (Nat.not_lt_zero _)
  | succ fuel ih =>
    obtain ⟨ihV, ihE, ihF, ihFs⟩ := ih
    refine ⟨?_, ?_, ?_, ?_⟩
    · -- parseVal
      intro v lvl rest hlen hrest
      cases v with
      | null =>
        rw [serVal]
        have hs : (['n', 'u', 'l', 'l'] : List Char) ++ rest =
            'n' :: 'u' :: 'l' :: 'l' :: rest := by simp
        rw [hs, parseVal]
        have hk : skipWs ('n' :: 'u' :: 'l' :: 'l' :: rest) =
            'n' :: 'u' :: 'l' :: 'l' :: rest := skipWs_cons_not_ws _ (by decide)
        rw [hk]
        rfl
      | bool b =>
        cases b with
        | true =>
          rw [serVal]
          have hs : (['t', 'r', 'u', 'e'] : List Char) ++ rest =
              't' :: 'r' :: 'u' :: 'e' :: rest := by simp
          rw [hs, parseVal]
          have hk : skipWs ('t' :: 'r' :: 'u' :: 'e' :: rest) =
              't' :: 'r' :: 'u' :: 'e' :: rest := skipWs_cons_not_ws _ (by decide)
          rw [hk]
          rfl
        | false =>
          rw [serVal]
          have hs : (['f', 'a', 'l', 's', 'e'] : List Char) ++ rest =
              'f' :: 'a' :: 'l' :: 's' :: 'e' :: rest := by simp
          rw [hs, parseVal]
          have hk : skipWs ('f' :: 'a' :: 'l' :: 's' :: 'e' :: rest) =
              'f' :: 'a' :: 'l' :: 's' :: 'e' :: rest := skipWs_cons_not_ws _ (by decide)
          rw [hk]
          rfl
      | num m e =>
        rw [serVal]
        obtain ⟨c, t, hnum, hc⟩ := numChars_head m e
        have hcw : isWsChar c = false := by
          simp only [isWsChar, Bool.or_eq_false_iff, decide_eq_false_iff_not]
          omega
        have hparse := parseNumber_ser m e rest hrest
        rw [hnum, List.cons_append, parseVal]
        have hk : skipWs (c :: (t ++ rest)) = c :: (t ++ rest) :=
          skipWs_cons_not_ws _ hcw
        rw [hk]
        split
        next heq => injection heq with hh _; rw [hh] at hc; exact absurd hc (by decide)
        next heq => injection heq with hh _; rw [hh] at hc; exact absurd hc (by decide)
        next heq => injection heq with hh _; rw [hh] at hc; exact absurd hc (by decide)
        next heq => injection heq with hh _; rw [hh] at hc; exact absurd hc (by decide)
        next heq => injection heq with hh _; rw [hh] at hc; exact absurd hc (by decide)
        next heq => injection heq with hh _; rw [hh] at hc; exact absurd hc (by decide)
        next =>
          rw [← List.cons_append, ← hnum]
          exact hparse
      | str s =>
        rw [serVal]
        have hs : escStringChars s ++ rest =
            '"' :: ((s.data.map escChar).flatten ++ '"' :: rest) := by
          rw [escStringChars]
          simp [List.append_assoc]
        rw [hs, parseVal]
        have hk : skipWs ('"' :: ((s.data.map escChar).flatten ++ '"' :: rest)) =
            '"' :: ((s.data.map escChar).flatten ++ '"' :: rest) :=
          skipWs_cons_not_ws _ (by decide)
        rw [hk]
        simp [parseStringBody_esc s.data rest, stringMk_data]
      | arr xs =>
        cases xs with
        | nil =>
          rw [serVal]
          have hs : (['[', ']'] : List Char) ++ rest = '[' :: ']' :: rest := by simp
          rw [hs, parseVal]
          have hk : skipWs ('[' :: ']' :: rest) = '[' :: ']' :: rest :=
            skipWs_cons_not_ws _ (by decide)
          rw [hk]
          have hk2 : skipWs (']' :: rest) = ']' :: rest := skipWs_cons_not_ws _ (by decide)
          simp [hk2]
        | cons x xs =>
          have hshape : serVal (Json.arr (x :: xs)) lvl ++ rest =
              '[' :: '\n' :: (indentChars (lvl + 2) ++ (serVal x (lvl + 2) ++
                (serElems xs (lvl + 2) ++ '\n' :: (indentChars lvl ++ ']' :: rest)))) := by
            rw [serVal]
            simp [List.append_assoc]
          rw [serVal] at hlen
          simp only [List.length_cons, List.length_append, indentChars,
            List.length_replicate] at hlen
          have hlx : (serVal x (lvl + 2)).length < fuel := by omega
          have hle : (serElems xs (lvl + 2)).length < fuel := by omega
          obtain ⟨c, t, hxh, hcw, hcne⟩ := serVal_head x (lvl + 2)
          have hskip : skipWs ('\n' :: (indentChars (lvl + 2) ++ (serVal x (lvl + 2) ++
              (serElems xs (lvl + 2) ++ '\n' :: (indentChars lvl ++ ']' :: rest))))) =
              serVal x (lvl + 2) ++
                (serElems xs (lvl + 2) ++ '\n' :: (indentChars lvl ++ ']' :: rest)) := by
            rw [skipWs_nl_indent, hxh, List.cons_append]
            exact skipWs_cons_not_ws _ hcw
          rw [hshape, parseVal]
          have hk : skipWs ('[' :: '\n' :: (indentChars (lvl + 2) ++ (serVal x (lvl + 2) ++
              (serElems xs (lvl + 2) ++ '\n' :: (indentChars lvl ++ ']' :: rest))))) =
              '[' :: '\n' :: (indentChars (lvl + 2) ++ (serVal x (lvl + 2) ++
                (serElems xs (lvl + 2) ++ '\n' :: (indentChars lvl ++ ']' :: rest)))) :=
            skipWs_cons_not_ws _ (by decide)
          rw [hk]
          simp only [hskip]
          split
          next heq =>
            rw [hxh, List.cons_append] at heq
            injection heq with hh _
            exact absurd hh hcne
          next =>
            have hv : parseVal fuel ('\n' :: (indentChars (lvl + 2) ++ (serVal x (lvl + 2) ++
                (serElems xs (lvl + 2) ++ '\n' :: (indentChars lvl ++ ']' :: rest))))) =
                some (x, serElems xs (lvl + 2) ++ '\n' :: (indentChars lvl ++ ']' :: rest)) := by
              have hcw2 : skipWs ('\n' :: (indentChars (lvl + 2) ++ (serVal x (lvl + 2) ++
                  (serElems xs (lvl + 2) ++ '\n' :: (indentChars lvl ++ ']' :: rest))))) =
                  skipWs (serVal x (lvl + 2) ++
                    (serElems xs (lvl + 2) ++ '\n' :: (indentChars lvl ++ ']' :: rest))) := by
                rw [hskip, hxh, List.cons_append, skipWs_cons_not_ws _ hcw]
              rw [parseVal_congr_ws hcw2 fuel]
              exact ihV x (lvl + 2) _ hlx (numSafe_serElems xs (lvl + 2) _)
            rw [hv, Option.some_bind, ihE xs (lvl + 2) lvl rest hle, Option.map_some']
      | obj fs =>
        cases fs with
        | nil =>
          rw [serVal]
          have hs : (['\x7b', '\x7d'] : List Char) ++ rest = '\x7b' :: '\x7d' :: rest := by
            simp
          rw [hs, parseVal]
          have hk : skipWs ('\x7b' :: '\x7d' :: rest) = '\x7b' :: '\x7d' :: rest :=
            skipWs_cons_not_ws _ (by decide)
          rw [hk]
          have hk2 : skipWs ('\x7d' :: rest) = '\x7d' :: rest :=
            skipWs_cons_not_ws _ (by decide)
          simp [hk2]
        | cons f fs =>
          have hshape : serVal (Json.obj (f :: fs)) lvl ++ rest =
              '\x7b' :: '\n' :: (indentChars (lvl + 2) ++ (serField f (lvl + 2) ++
                (serFields fs (lvl + 2) ++ '\n' :: (indentChars lvl ++ '\x7d' :: rest)))) := by
            rw [serVal]
            simp [List.append_assoc]
          rw [serVal] at hlen
          simp only [List.length_cons, List.length_append, indentChars,
            List.length_replicate] at hlen
          have hlf : (serField f (lvl + 2)).length < fuel := by omega
          have hlfs : (serFields fs (lvl + 2)).length < fuel := by omega
          obtain ⟨t, hfh⟩ := serField_head f (lvl + 2)
          have hskip : skipWs ('\n' :: (indentChars (lvl + 2) ++ (serField f (lvl + 2) ++
              (serFields fs (lvl + 2) ++ '\n' :: (indentChars lvl ++ '\x7d' :: rest))))) =
              serField f (lvl + 2) ++
                (serFields fs (lvl + 2) ++ '\n' :: (indentChars lvl ++ '\x7d' :: rest)) := by
            rw [skipWs_nl_indent, hfh, List.cons_append]
            exact skipWs_cons_not_ws _ (by decide)
          rw [hshape, parseVal]
          have hk : skipWs ('\x7b' :: '\n' :: (indentChars (lvl + 2) ++ (serField f (lvl + 2) ++
              (serFields fs (lvl + 2) ++ '\n' :: (indentChars lvl ++ '\x7d' :: rest))))) =
              '\x7b' :: '\n' :: (indentChars (lvl + 2) ++ (serField f (lvl + 2) ++
                (serFields fs (lvl + 2) ++ '\n' :: (indentChars lvl ++ '\x7d' :: rest)))) :=
            skipWs_cons_not_ws _ (by decide)
          rw [hk]
          simp only [hskip]
          split
          next heq =>
            rw [hfh, List.cons_append] at heq
            injection heq with hh _
            exact absurd hh (by decide)
          next =>
            have hv : parseField fuel ('\n' :: (indentChars (lvl + 2) ++ (serField f (lvl + 2) ++
                (serFields fs (lvl + 2) ++ '\n' :: (indentChars lvl ++ '\x7d' :: rest))))) =
                some (f, serFields fs (lvl + 2) ++
                  '\n' :: (indentChars lvl ++ '\x7d' :: rest)) := by
              have hcw2 : skipWs ('\n' :: (indentChars (lvl + 2) ++ (serField f (lvl + 2) ++
                  (serFields fs (lvl + 2) ++ '\n' :: (indentChars lvl ++ '\x7d' :: rest))))) =
                  skipWs (serField f (lvl + 2) ++
                    (serFields fs (lvl + 2) ++ '\n' :: (indentChars lvl ++ '\x7d' :: rest))) := by
                rw [hskip, hfh, List.cons_append, skipWs_cons_not_ws _ (by decide)]
              rw [parseField_congr_ws hcw2 fuel]
              exact ihF f (lvl + 2) _ hlf (numSafe_serFields fs (lvl + 2) _)
            rw [hv, Option.some_bind, ihFs fs (lvl + 2) lvl rest hlfs, Option.map_some']
    · -- parseElems
      intro xs lvl lc rest hlen
      cases xs with
      | nil =>
        rw [serElems, List.nil_append, parseElems, skipWs_nl_indent]
        have hk : skipWs (']' :: rest) = ']' :: rest := skipWs_cons_not_ws _ (by decide)
        rw [hk]
        rfl
      | cons x xs =>
        have hshape : serElems (x :: xs) lvl ++ '\n' :: (indentChars lc ++ ']' :: rest) =
            ',' :: '\n' :: (indentChars lvl ++ (serVal x lvl ++
              (serElems xs lvl ++ '\n' :: (indentChars lc ++ ']' :: rest)))) := by
          rw [serElems]
          simp [List.append_assoc]
        rw [serElems] at hlen
        simp only [List.length_cons, List.length_append, indentChars,
          List.length_replicate] at hlen
        have hlx : (serVal x lvl).length < fuel := by omega
        have hle : (serElems xs lvl).length < fuel := by omega
        obtain ⟨c, t, hxh, hcw, _⟩ := serVal_head x lvl
        rw [hshape, parseElems]
        have hk : skipWs (',' :: '\n' :: (indentChars lvl ++ (serVal x lvl ++
            (serElems xs lvl ++ '\n' :: (indentChars lc ++ ']' :: rest))))) =
            ',' :: '\n' :: (indentChars lvl ++ (serVal x lvl ++
              (serElems xs lvl ++ '\n' :: (indentChars lc ++ ']' :: rest)))) :=
          skipWs_cons_not_ws _ (by decide)
        rw [hk]
        have hv : parseVal fuel ('\n' :: (indentChars lvl ++ (serVal x lvl ++
            (serElems xs lvl ++ '\n' :: (indentChars lc ++ ']' :: rest))))) =
            some (x, serElems xs lvl ++ '\n' :: (indentChars lc ++ ']' :: rest)) := by
          have hcw2 : skipWs ('\n' :: (indentChars lvl ++ (serVal x lvl ++
              (serElems xs lvl ++ '\n' :: (indentChars lc ++ ']' :: rest))))) =
              skipWs (serVal x lvl ++
                (serElems xs lvl ++ '\n' :: (indentChars lc ++ ']' :: rest))) := by
            rw [skipWs_nl_indent]
          rw [parseVal_congr_ws hcw2 fuel]
          exact ihV x lvl _ hlx (numSafe_serElems xs lvl _)
        simp only [hv, Option.some_bind]
        rw [ihE xs lvl lc rest hle, Option.map_some']
    · -- parseField
      intro f lvl rest hlen hrest
      obtain ⟨k, v⟩ := f
      have hshape : serField (k, v) lvl ++ rest =
          '"' :: ((k.data.map escChar).flatten ++
            '"' :: ':' :: ' ' :: (serVal v lvl ++ rest)) := by
        rw [serField, escStringChars]
        simp [List.append_assoc]
      rw [serField] at hlen
      simp only [List.length_cons, List.length_append] at hlen
      have hlv : (serVal v lvl).length < fuel := by
        rw [escStringChars] at hlen
        simp only [List.length_cons, List.length_append] at hlen
        omega
      rw [hshape, parseField]
      have hk : skipWs ('"' :: ((k.data.map escChar).flatten ++
          '"' :: ':' :: ' ' :: (serVal v lvl ++ rest))) =
          '"' :: ((k.data.map escChar).flatten ++
            '"' :: ':' :: ' ' :: (serVal v lvl ++ rest)) :=
        skipWs_cons_not_ws _ (by decide)
      rw [hk]
      have hbody := parseStringBody_esc k.data (':' :: ' ' :: (serVal v lvl ++ rest))
      simp only [hbody, Option.some_bind]
      have hk2 : skipWs (':' :: ' ' :: (serVal v lvl ++ rest)) =
          ':' :: ' ' :: (serVal v lvl ++ rest) := skipWs_cons_not_ws _ (by decide)
      rw [hk2]
      have hv : parseVal fuel (' ' :: (serVal v lvl ++ rest)) = some (v, rest) := by
        have hcw2 : skipWs (' ' :: (serVal v lvl ++ rest)) =
            skipWs (serVal v lvl ++ rest) := skipWs_cons_ws _ (by decide)
        rw [parseVal_congr_ws hcw2 fuel]
        exact ihV v lvl rest hlv hrest
      simp only [hv, Option.map_some', stringMk_data]
    · -- parseFields
      intro fs lvl lc rest hlen
      cases fs with
      | nil =>
        rw [serFields, List.nil_append, parseFields, skipWs_nl_indent]
        have hk : skipWs ('\x7d' :: rest) = '\x7d' :: rest :=
          skipWs_cons_not_ws _ (by decide)
        rw [hk]
        rfl
      | cons f fs =>
        have hshape : serFields (f :: fs) lvl ++ '\n' :: (indentChars lc ++ '\x7d' :: rest) =
            ',' :: '\n' :: (indentChars lvl ++ (serField f lvl ++
              (serFields fs lvl ++ '\n' :: (indentChars lc ++ '\x7d' :: rest)))) := by
          rw [serFields]
          simp [List.append_assoc]
        rw [serFields] at hlen
        simp only [List.length_cons, List.length_append, indentChars,
          List.length_replicate] at hlen
        have hlf : (serField f lvl).length < fuel := by omega
        have hlfs : (serFields fs lvl).length < fuel := by omega
        rw [hshape, parseFields]
        have hk : skipWs (',' :: '\n' :: (indentChars lvl ++ (serField f lvl ++
            (serFields fs lvl ++ '\n' :: (indentChars lc ++ '\x7d' :: rest))))) =
            ',' :: '\n' :: (indentChars lvl ++ (serField f lvl ++
              (serFields fs lvl ++ '\n' :: (indentChars lc ++ '\x7d' :: rest)))) :=
          skipWs_cons_not_ws _ (by decide)
        rw [hk]
        have hv : parseField fuel ('\n' :: (indentChars lvl ++ (serField f lvl ++
            (serFields fs lvl ++ '\n' :: (indentChars lc ++ '\x7d' :: rest))))) =
            some (f, serFields fs lvl ++ '\n' :: (indentChars lc ++ '\x7d' :: rest)) := by
          have hcw2 : skipWs ('\n' :: (indentChars lvl ++ (serField f lvl ++
              (serFields fs lvl ++ '\n' :: (indentChars lc ++ '\x7d' :: rest))))) =
              skipWs (serField f lvl ++
                (serFields fs lvl ++ '\n' :: (indentChars lc ++ '\x7d' :: rest))) := by
            rw [skipWs_nl_indent]
          rw [parseField_congr_ws hcw2 fuel]
          exact ihF f lvl _ hlf (numSafe_serFields fs lvl _)
        simp only [hv, Option.some_bind]
        rw [ihFs fs lvl lc rest hlfs, Option.map_some']

/-- The round trip: parsing a serialized document recovers the value. -/
theorem parse_dumps (v : Json) : parseJson (dumps v) = some v := by
  have h := (parse_ser_fuel ((serVal v 0).length + 1)).1 v 0 [] (Nat.lt_succ_self _) rfl
  rw [List.append_nil] at h
  rw [parseJson]
  rw [show (dumps v).data = serVal v 0 from rfl,
    show (dumps v).length = (serVal v 0).length from rfl, h]
  rfl

/-! ### Aggregator lemmas -/

theorem sumValues_nil : sumValues [] = 0 := rfl

theorem sumValues_addAmount (acc : List (String × ℚ)) (c : String) (a : ℚ) :
    sumValues (addAmount acc c a) = sumValues acc + a := by
  induction acc with
  | nil => simp [addAmount, sumValues]
  | cons kv rest ih =>
    obtain ⟨k, v⟩ := kv
    rw [addAmount]
    by_cases h : k = c
    · rw [if_pos h]
      simp only [sumValues, List.map_cons, List.sum_cons]
      ring
    · rw [if_neg h]
      simp only [sumValues, List.map_cons, List.sum_cons] at *
      rw [ih]
      ring

theorem sumValues_foldl (rs : List NormalizedRecord) :
    ∀ acc : List (String × ℚ),
      sumValues (rs.foldl (fun acc r => addAmount acc r.company_name r.total_amount) acc) =
        sumValues acc + (rs.map NormalizedRecord.total_amount).sum := by
  induction rs with
  | nil => intro acc; simp
  | cons r rs ih =>
    intro acc
    rw [List.foldl_cons, ih, sumValues_addAmount]
    simp only [List.map_cons, List.sum_cons]
    ring

theorem lookupAmt_addAmount (acc : List (String × ℚ)) (c c' : String) (a : ℚ) :
    lookupAmt (addAmount acc c a) c' =
      if c' = c then some ((lookupAmt acc c').getD 0 + a) else lookupAmt acc c' := by
  induction acc with
  | nil =>
    by_cases h : c' = c
    · subst h
      simp [addAmount, lookupAmt]
    · simp [addAmount, lookupAmt, h, Ne.symm h]
  | cons kv rest ih =>
    obtain ⟨k, v⟩ := kv
    rw [addAmount]
    by_cases hk : k = c
    · subst hk
      rw [if_pos rfl]
      simp only [lookupAmt]
      by_cases h : k = c'
      · subst h
        simp
      · simp [h, Ne.symm h]
    · rw [if_neg hk]
      simp only [lookupAmt]
      by_cases h : k = c'
      · subst h
        simp [hk, Ne.symm hk]
      · simp [h, ih]

theorem companyTotal_cons (r : NormalizedRecord) (rs : List NormalizedRecord) (c : String) :
    companyTotal (r :: rs) c =
      (if r.company_name = c then r.total_amount else 0) + companyTotal rs c := by
  rw [companyTotal, companyTotal]
  by_cases h : r.company_name = c
  · rw [if_pos h, List.filter_cons_of_pos (by simp [h]), List.map_cons, List.sum_cons]
  · rw [if_neg h, List.filter_cons_of_neg (by simp [h]), zero_add]

theorem hasCompany_cons (r : NormalizedRecord) (rs : List NormalizedRecord) (c : String) :
    hasCompany (r :: rs) c = (decide (r.company_name = c) || hasCompany rs c) := by
  rw [hasCompany, hasCompany, List.any_cons]

theorem lookupAmt_foldl (rs : List NormalizedRecord) :
    ∀ (acc : List (String × ℚ)) (c : String),
      lookupAmt (rs.foldl (fun acc r => addAmount acc r.company_name r.total_amount) acc) c =
        (match lookupAmt acc c with
         | some v => some (v + companyTotal rs c)
         | none => if hasCompany rs c then some (companyTotal rs c) else none) := by
  induction rs with
  | nil =>
    intro acc c
    rw [List.foldl_nil]
    cases h : lookupAmt acc c with
    | none => rw [hasCompany]; simp
    | some v => rw [companyTotal]; simp
  | cons r rs ih =>
    intro acc c
    rw [List.foldl_cons, ih, lookupAmt_addAmount, companyTotal_cons, hasCompany_cons]
    by_cases hc : c = r.company_name
    · subst hc
      cases h : lookupAmt acc r.company_name with
      | none => simp [h]
      | some v =>
        simp [h]
        ring
    · rw [if_neg hc, if_neg (fun hh : r.company_name = c => hc hh.symm), zero_add,
        decide_eq_false (fun hh : r.company_name = c => hc hh.symm), Bool.false_or]

theorem lookupAmt_aggregate (rs : List NormalizedRecord) (c : String) :
    lookupAmt (aggregate rs) c =
      if hasCompany rs c then some (companyTotal rs c) else none := by
  rw [aggregate, lookupAmt_foldl rs [] c, lookupAmt]

/-! ### extract_text_from_pdf lemmas -/

theorem fold_pages_eq (pages : List (Option String)) :
    ∀ acc : List Char,
      pages.foldl
        (fun acc p =>
          match p with
          | some t => if t.data = [] then acc else acc ++ t.data ++ ['\n']
          | none => acc) acc =
      acc ++ ((pageTexts pages).map (fun t => t ++ ['\n'])).flatten := by
  induction pages with
  | nil => intro acc; simp [pageTexts]
  | cons p ps ih =>
    intro acc
    cases p with
    | none =>
      rw [List.foldl_cons, ih]
      have hp : pageTexts (none :: ps) = pageTexts ps := by
        simp [pageTexts]
      rw [hp]
    | some t =>
      by_cases ht : t.data = []
      · rw [List.foldl_cons]
        have hstep :
            (match some t with
             | some t => if t.data = [] then acc else acc ++ t.data ++ ['\n']
             | none => acc) = acc := by
          simp [ht]
        rw [hstep, ih]
        have hp : pageTexts (some t :: ps) = pageTexts ps := by
          simp [pageTexts, ht]
        rw [hp]
      · rw [List.foldl_cons]
        have hstep :
            (match some t with
             | some t => if t.data = [] then acc else acc ++ t.data ++ ['\n']
             | none => acc) = acc ++ t.data ++ ['\n'] := by
          simp [ht]
        rw [hstep, ih]
        have hp : pageTexts (some t :: ps) = t.data :: pageTexts ps := by
          simp [pageTexts, ht]
        rw [hp, List.map_cons, List.flatten_cons]
        simp [List.append_assoc]

theorem joinNl_eq_interNl (ts : List (List Char)) (hne : ts ≠ []) :
    (ts.map (fun t => t ++ ['\n'])).flatten = interNl ts ++ ['\n'] := by
  induction ts with
  | nil => exact absurd rfl hne
  | cons t ts ih =>
    cases ts with
    | nil => simp [interNl]
    | cons t2 ts2 =>
      rw [List.map_cons, List.flatten_cons, ih (by simp), interNl]
      simp [List.append_assoc]

theorem dropWhile_append_eq (p : Char → Bool) :
    ∀ a b : List Char,
      (a ++ b).dropWhile p =
        if a.dropWhile p = [] then b.dropWhile p else a.dropWhile p ++ b := by
  intro a
  induction a with
  | nil => intro b; simp
  | cons x a ih =>
    intro b
    by_cases hx : p x = true
    · rw [List.cons_append, List.dropWhile_cons_of_pos hx, List.dropWhile_cons_of_pos hx, ih]
    · rw [List.cons_append, List.dropWhile_cons_of_neg (by simpa using hx),
        List.dropWhile_cons_of_neg (by simpa using hx), if_neg (by simp), List.cons_append]

theorem stripChars_snoc_ws (x : List Char) (c : Char) (hc : isPyWs c = true) :
    stripChars (x ++ [c]) = stripChars x := by
  rw [stripChars, stripChars, dropWhile_append_eq]
  by_cases hx : x.dropWhile isPyWs = []
  · rw [if_pos hx, hx]
    rw [show ([c].dropWhile isPyWs : List Char) = [] by
      rw [List.dropWhile_cons_of_pos hc]; rfl]
  · rw [if_neg hx, List.reverse_append, List.reverse_singleton, List.singleton_append,
      List.dropWhile_cons_of_pos hc]

/-- Helper: prepending the empty string is the identity. -/
theorem empty_string_append (s : String) : "" ++ s = s := by
  cases s with
  | mk data => rfl

/-- Helper: the final state of `save_json_data` holds the serialized parsed
data at the destination. -/
theorem save_json_data_final (data : SaveArg) (fn : String) (fs : Fs) :
    (save_json_data data fn fs).1 fn = some (dumps (saveParsed data)) := by
  rw [save_json_data]
  show runOps (saveOps data fn) fs fn = _
  rw [saveOps, runOps, List.foldl_cons, List.foldl_cons, List.foldl_nil, applyOp, applyOp]
  simp [empty_string_append]

/-! ## The claims -/

/-- C1 (counterexample): the claim that `save_json_data` writes atomically —
interrupting it at any point before completion leaves a pre-existing
destination file unchanged — is false.  With a destination file holding
`"old"`, stopping after the first operation (the `open(filename, 'w')`
truncation) leaves the destination empty, not `"old"`. -/
theorem save_json_data_not_atomic :
    ¬ atomicTo (saveOps (SaveArg.val (Json.obj [])) "out.json") "out.json" := by
  intro h
  have h1 := h (fun p => if p = "out.json" then some "old" else none) 1
    (by rw [saveOps]; simp)
  have h2 : runOps ((saveOps (SaveArg.val (Json.obj [])) "out.json").take 1)
      (fun p => if p = "out.json" then some "old" else none) "out.json" = some "" := rfl
  have h3 : (fun p : String => if p = "out.json" then some "old" else none) "out.json" =
      some "old" := rfl
  rw [h2, h3] at h1
  exact absurd h1 (by decide)

/-- C1 (amended): `save_json_data` serializes the parsed data as indented
JSON but writes it directly to the destination — `open(filename, 'w')`
truncates the destination itself and `json.dump` then fills it; there is no
temporary path and no rename.  The completed operation leaves the serialized
document at the destination, while an interruption right after the open
leaves the destination as an empty file, destroying any pre-existing
content. -/
theorem save_json_data_direct_write (data : SaveArg) (fn : String) (fs : Fs) :
    (save_json_data data fn fs).1 fn = some (dumps (saveParsed data)) ∧
    runOps ((saveOps data fn).take 1) fs fn = some "" := by
  refine ⟨save_json_data_final data fn fs, ?_⟩
  rw [saveOps]
  show runOps [FsOp.truncate fn] fs fn = some ""
  rw [runOps, List.foldl_cons, List.foldl_nil, applyOp]
  simp

/-- C2 (counterexample): the claim that the reader fails with a
`MalformedDocumentError`, surfaced to the caller, exactly when the parsed
document is not an array of objects, is false for
`ReceiptProcessingTools.read_json_file`: on a file holding `"{}"` — a JSON
object, not an array — it succeeds and returns the re-serialized document,
reporting no error of any kind. -/
theorem read_json_file_no_validation_cex :
    ¬ (∀ (fs : Fs) (fn content : String) (v : Json),
        fs fn = some content → parseJson content = some v →
        (("Error reading file: ".isPrefixOf (read_json_file fs fn)) = true ↔
          isArrayOfObjects v = false)) := by
  intro h
  have h1 := h (fun p => if p = "data.json" then some "\x7b\x7d" else none) "data.json"
    "\x7b\x7d" (Json.obj []) rfl rfl
  exact absurd (h1.mpr rfl) (by decide)

/-- C2 (amended): `read_json_file` performs no array-of-objects validation
and raises nothing (there is no `MalformedDocumentError` anywhere in the
code): any stored document that parses as JSON — array of objects or not —
is returned re-serialized, and a missing file or a JSON parse failure is
caught inside the function and rendered as an `"Error reading file: ..."`
string returned to the caller. -/
theorem read_json_file_no_validation (fs : Fs) (fn : String) :
    (∀ content v, fs fn = some content → parseJson content = some v →
      read_json_file fs fn = dumps v) ∧
    (fs fn = none →
      read_json_file fs fn = "Error reading file: No such file or directory") ∧
    (∀ content, fs fn = some content → parseJson content = none →
      read_json_file fs fn = "Error reading file: Expecting value") := by
  refine ⟨?_, ?_, ?_⟩
  · intro content v h1 h2
    rw [read_json_file, h1]
    show (match parseJson content with
          | some v => dumps v
          | none => "Error reading file: Expecting value") = dumps v
    rw [h2]
  · intro h1
    rw [read_json_file, h1]
  · intro content h1 h2
    rw [read_json_file, h1]
    show (match parseJson content with
          | some v => dumps v
          | none => "Error reading file: Expecting value") =
      "Error reading file: Expecting value"
    rw [h2]

/-- C2 (witness): reading a stored `"{}"` returns the document itself. -/
theorem read_json_file_no_validation_witness :
    read_json_file (fun p => if p = "data.json" then some "\x7b\x7d" else none)
      "data.json" = "\x7b\x7d" :=
  (read_json_file_no_validation _ "data.json").1 "\x7b\x7d" (Json.obj []) rfl rfl

/-- C3: conservation of total — for every sequence of normalized records,
the values of the aggregate map sum to the sum of the records'
`total_amount` fields. -/
theorem aggregate_conserves_total (rs : List NormalizedRecord) :
    sumValues (aggregate rs) = (rs.map NormalizedRecord.total_amount).sum := by
  rw [aggregate, sumValues_foldl rs [], sumValues_nil, zero_add]

/-- C4: `normalize` is a total function (no exception path exists in the
model) and degrades malformed input to safe defaults: a missing or
non-string `company_name` becomes `""`, `total_amount = "$12.50"` yields
`12.50`, and an empty-string or missing `total_amount` yields `0.0`. -/
theorem normalize_safe_defaults :
    (∀ a : Option Json, (normalize ⟨none, a⟩).company_name = "") ∧
    (∀ (c : Json) (a : Option Json), (∀ s, c ≠ Json.str s) →
      (normalize ⟨some c, a⟩).company_name = "") ∧
    (∀ c : Option Json,
      (normalize ⟨c, some (Json.str "$12.50")⟩).total_amount = 12.5) ∧
    (∀ c : Option Json, (normalize ⟨c, some (Json.str "")⟩).total_amount = 0) ∧
    (∀ c : Option Json, (normalize ⟨c, none⟩).total_amount = 0) := by
  refine ⟨?_, ?_, ?_, ?_, ?_⟩
  · intro a
    rfl
  · intro c a hc
    cases c with
    | str s => exact absurd rfl (hc s)
    | null => rfl
    | bool b => rfl
    | num m e => rfl
    | arr xs => rfl
    | obj fs => rfl
  · intro c
    show parseAmount "$12.50" = (12.5 : ℚ)
    rw [show parseAmount "$12.50" = ((1250 : Nat) : ℚ) / 10 ^ 2 from rfl]
    norm_num
  · intro c
    rfl
  · intro c
    rfl

/-- C4 (witness): a record with a `null` company name and a `null` amount
normalizes to the safe defaults. -/
theorem normalize_safe_defaults_witness :
    (normalize ⟨some Json.null, some Json.null⟩).company_name = "" :=
  normalize_safe_defaults.2.1 Json.null (some Json.null) (fun _ h => Json.noConfusion h)

/-- C5 (counterexample): the claim that the aggregation step reads or writes
no files is false — its prescribed step-by-step procedure contains file
steps (step 1 reads `extracted_receipts.json`, step 6 saves
`aggregated_receipts.json`). -/
theorem aggregation_step_files_cex :
    ¬ (∀ s ∈ aggregationTaskSteps, isFileStep s = false) := by
  decide

/-- C5 (amended): the grouping-and-summing computation itself is modelled as
a pure function of the records (see the conservation and permutation
theorems), but the aggregation step as implemented does touch the file
system: the aggregation agent is handed the `read_json_file` and
`save_json_data` tools, and its task instructs it to read
`extracted_receipts.json` and to save `aggregated_receipts.json`. -/
theorem aggregation_step_uses_files :
    ToolName.read_json_file ∈ aggregationAgentTools ∧
    ToolName.save_json_data ∈ aggregationAgentTools ∧
    TaskStep.readFile "extracted_receipts.json" ∈ aggregationTaskSteps ∧
    TaskStep.saveFile "aggregated_receipts.json" ∈ aggregationTaskSteps := by
  decide

/-- C6: `save_json_data` followed by `read_json_file` on the same path
round-trips an aggregate map exactly: the parsed content of the saved file
is precisely the map's key/value pairs, and the reader returns the same
serialized document. -/
theorem save_load_roundtrip (entries : List AggEntry) (fn : String) (fs : Fs) :
    parseJson (dumps (aggMapJson entries)) = some (aggMapJson entries) ∧
    (save_json_data (SaveArg.val (aggMapJson entries)) fn fs).1 fn =
      some (dumps (aggMapJson entries)) ∧
    read_json_file ((save_json_data (SaveArg.val (aggMapJson entries)) fn fs).1) fn =
      dumps (aggMapJson entries) := by
  have hrt := parse_dumps (aggMapJson entries)
  have hsave := save_json_data_final (SaveArg.val (aggMapJson entries)) fn fs
  rw [show saveParsed (SaveArg.val (aggMapJson entries)) = aggMapJson entries from rfl] at hsave
  refine ⟨hrt, hsave, ?_⟩
  rw [read_json_file, hsave]
  show (match parseJson (dumps (aggMapJson entries)) with
        | some v => dumps v
        | none => "Error reading file: Expecting value") = dumps (aggMapJson entries)
  rw [hrt]

/-- C7: `aggregate` is deterministic (it is a function), and permuting the
input changes only the insertion order of the keys: every company's final
value is unchanged. -/
theorem aggregate_perm_values {l1 l2 : List NormalizedRecord} (hp : l1.Perm l2) :
    ∀ c, lookupAmt (aggregate l1) c = lookupAmt (aggregate l2) c := by
  intro c
  rw [lookupAmt_aggregate, lookupAmt_aggregate]
  have ht : companyTotal l1 c = companyTotal l2 c :=
    List.Perm.sum_eq (List.Perm.map _ (List.Perm.filter _ hp))
  have hh : hasCompany l1 c = hasCompany l2 c := by
    rw [hasCompany, hasCompany, Bool.eq_iff_iff, List.any_eq_true, List.any_eq_true]
    constructor
    · rintro ⟨r, hr, hrc⟩
      exact ⟨r, hp.mem_iff.1 hr, hrc⟩
    · rintro ⟨r, hr, hrc⟩
      exact ⟨r, hp.mem_iff.2 hr, hrc⟩
  rw [ht, hh]

/-- C7 (witness): swapping two records does not change the final values. -/
theorem aggregate_perm_values_witness :
    lookupAmt (aggregate [⟨"A", 1⟩, ⟨"B", 2⟩]) "A" =
      lookupAmt (aggregate [⟨"B", 2⟩, ⟨"A", 1⟩]) "A" :=
  aggregate_perm_values (List.Perm.swap ⟨"B", 2⟩ ⟨"A", 1⟩ []) "A"

/-- C8: `extract_text_from_pdf` is total over the modelled outcomes: an
exception is caught and rendered as `"Error reading PDF: " ++ msg`, and a
successful open returns the newline-join of the pages that produced
(nonempty) text, stripped of leading and trailing whitespace — a plain
`String` in both cases, indistinguishable in type from extracted text. -/
theorem extract_text_total :
    (∀ msg, extract_text_from_pdf (PdfOutcome.err msg) = "Error reading PDF: " ++ msg) ∧
    (∀ pages, extract_text_from_pdf (PdfOutcome.ok pages) =
      String.mk (stripChars (interNl (pageTexts pages)))) := by
  constructor
  · intro msg
    rw [extract_text_from_pdf]
  · intro pages
    rw [extract_text_from_pdf, fold_pages_eq pages [], List.nil_append]
    by_cases hne : pageTexts pages = []
    · rw [hne]
      rfl
    · rw [joinNl_eq_interNl _ hne, stripChars_snoc_ws _ _ (by decide)]

/-- C9: a string argument to `save_json_data` that parses as JSON is
persisted as the parsed value (the string `"42"` is stored as the number
`42`), and only a string that fails JSON parsing is persisted as a JSON
string. -/
theorem save_json_data_parses_strings (s fn : String) (fs : Fs) :
    (∀ v, parseJson s = some v →
      (save_json_data (SaveArg.str s) fn fs).1 fn = some (dumps v)) ∧
    (parseJson s = none →
      (save_json_data (SaveArg.str s) fn fs).1 fn = some (dumps (Json.str s))) := by
  constructor
  · intro v hv
    rw [save_json_data_final, saveParsed, hv]
  · intro hv
    rw [save_json_data_final, saveParsed, hv]

/-- C9 (witness): saving the string `"42"` stores the JSON number `42`, and
saving `"[1, 2]"` stores the array `[1, 2]`. -/
theorem save_json_data_parses_strings_witness :
    (save_json_data (SaveArg.str "42") "out.json" (fun _ => none)).1 "out.json" =
      some (dumps (Json.num 42 0)) ∧
    (save_json_data (SaveArg.str "[1, 2]") "out.json" (fun _ => none)).1 "out.json" =
      some (dumps (Json.arr [Json.num 1 0, Json.num 2 0])) :=
  ⟨(save_json_data_parses_strings "42" "out.json" (fun _ => none)).1
      (Json.num 42 0) rfl,
   (save_json_data_parses_strings "[1, 2]" "out.json" (fun _ => none)).1
      (Json.arr [Json.num 1 0, Json.num 2 0]) rfl⟩

/-- C10: `list_pdf_files` returns exactly the entries whose lowercased name
ends with `".pdf"`; an OS error is caught and rendered as a one-element list
holding an error-message string, so a failed listing can coincide with the
listing of a directory containing a single file of that name. -/
theorem list_pdf_files_spec :
    (∀ entries, list_pdf_files (DirListing.ok entries) =
      entries.filter (fun f => isPdfName f)) ∧
    (∀ msg, list_pdf_files (DirListing.err msg) = ["Error listing files: " ++ msg]) ∧
    (∃ msg entries, list_pdf_files (DirListing.err msg) =
      list_pdf_files (DirListing.ok entries)) := by
  refine ⟨fun entries => rfl, fun msg => rfl,
    ⟨"x.pdf", ["Error listing files: x.pdf"], ?_⟩⟩
  rfl

end ReceiptProc
